import Mathlib

/-!
Verification of the symseek resolution engine (`src/core/resolver.rs`,
`src/core/detector.rs`, `src/core/detector/nix_binary_wrapper.rs`,
`src/core/detector/nix_program_name.rs`, `src/core/types.rs`) against its
natural-language specification.

Modelling conventions:
* Paths (`PathBuf`) are modelled as their character sequences; path equality is
  string equality.
* File contents are byte lists (`List Nat`, each entry a byte value).
* The filesystem is an abstract total map from paths to entries (symlink with a
  target, regular file with content, directory, or missing); all I/O performed
  by the Rust code becomes a lookup in this map.  Metadata and content reads
  are modelled on the entry stored at the exact path being read (the resolver
  only performs such reads on paths it has already found not to be symlinks).
* The Rust `regex` patterns are ASCII-literal/character-class patterns; they
  are embedded as equivalent maximal-munch scanners over the character list.
* The unbounded `loop` in `resolve` is modelled with an explicit fuel
  parameter; running out of fuel yields the model-only error `fuelExhausted`.
-/

deriving instance DecidableEq for Except

namespace Symseek

/-- Rust `PathBuf` modelled as its character sequence. -/
abbrev Path := List Char

/-- Rust `Path::is_absolute` on Unix: the path starts with `/`. -/
def isAbsolutePath : Path → Bool
  | [] => false
  | c :: _ => c = '/'

/-- Rust `str::contains` for a literal pattern: the pattern occurs as a
contiguous substring of the haystack. -/
def containsSubstr (hay pat : List Char) : Bool :=
  match hay with
  | [] => decide (pat = [])
  | c :: rest => pat.isPrefixOf (c :: rest) || containsSubstr rest pat

/-- ASCII lowercasing, modelling `str::to_lowercase` on the ASCII shebang text
the classifier examines. -/
def toLowerAscii (s : List Char) : List Char :=
  s.map fun c => if 'A' ≤ c ∧ c ≤ 'Z' then Char.ofNat (c.toNat + 32) else c

/-- UTF-8 continuation byte test. -/
def isUtf8Cont (b : Nat) : Bool := 0x80 ≤ b ∧ b ≤ 0xBF

/-- Strict UTF-8 decoding of a byte list (as performed by
`str::from_utf8` / `String::from_utf8`): `none` on invalid input.
Overlong encodings, surrogates and out-of-range values are rejected. -/
def utf8Decode? : List Nat → Option (List Char)
  | [] => some []
  | b0 :: bs =>
    if b0 ≤ 0x7F then
      (utf8Decode? bs).map fun cs => Char.ofNat b0 :: cs
    else if 0xC2 ≤ b0 ∧ b0 ≤ 0xDF then
      match bs with
      | b1 :: bs2 =>
        if isUtf8Cont b1 then
          (utf8Decode? bs2).map fun cs =>
            Char.ofNat ((b0 - 0xC0) * 0x40 + (b1 - 0x80)) :: cs
        else none
      | [] => none
    else if 0xE0 ≤ b0 ∧ b0 ≤ 0xEF then
      match bs with
      | b1 :: b2 :: bs2 =>
        if (if b0 = 0xE0 then 0xA0 ≤ b1 ∧ b1 ≤ 0xBF
            else if b0 = 0xED then 0x80 ≤ b1 ∧ b1 ≤ 0x9F
            else isUtf8Cont b1 = true) ∧ isUtf8Cont b2 then
          (utf8Decode? bs2).map fun cs =>
            Char.ofNat ((b0 - 0xE0) * 0x1000 + (b1 - 0x80) * 0x40 + (b2 - 0x80)) :: cs
        else none
      | _ => none
    else if 0xF0 ≤ b0 ∧ b0 ≤ 0xF4 then
      match bs with
      | b1 :: b2 :: b3 :: bs2 =>
        if (if b0 = 0xF0 then 0x90 ≤ b1 ∧ b1 ≤ 0xBF
            else if b0 = 0xF4 then 0x80 ≤ b1 ∧ b1 ≤ 0x8F
            else isUtf8Cont b1 = true) ∧ isUtf8Cont b2 ∧ isUtf8Cont b3 then
          (utf8Decode? bs2).map fun cs =>
            Char.ofNat
              ((b0 - 0xF0) * 0x40000 + (b1 - 0x80) * 0x1000 +
                (b2 - 0x80) * 0x40 + (b3 - 0x80)) :: cs
        else none
      | _ => none
    else none

/-- Loop body of `extract_strings_from_binary`: walks the bytes carrying the
accumulator of the current printable run (source: detector.rs lines 253-274). -/
def extractLoop : List Nat → List Nat → List Char
  | [], _ => []
  | b :: rest, cur =>
    if b = 0 then
      if cur = [] then extractLoop rest []
      else cur.map Char.ofNat ++ '\n' :: extractLoop rest []
    else if 32 ≤ b ∧ b ≤ 126 then extractLoop rest (cur ++ [b])
    else extractLoop rest []

/-- Source `extract_strings_from_binary` (detector.rs): extract printable-ASCII
runs terminated by null bytes, each followed by a newline. -/
def extract_strings_from_binary (bytes : List Nat) : List Char := extractLoop bytes []

/-- Source `FileType` (detector.rs). -/
inductive FileType where
  | symlink
  | shellScript
  | pythonScript
  | perlScript
  | otherScript
  | elfBinary
  | otherBinary
  | otherText
deriving DecidableEq

/-- ELF magic bytes `0x7F 'E' 'L' 'F'`. -/
def elfMagic : List Nat := [0x7F, 0x45, 0x4C, 0x46]

/-- Classification of a shebang line by case-insensitive interpreter
substring match (detector.rs lines 89-100), applied to the lowercased text. -/
def shebangType (l : List Char) : FileType :=
  if containsSubstr l "bash".toList ∨ containsSubstr l "sh".toList then .shellScript
  else if containsSubstr l "python".toList then .pythonScript
  else if containsSubstr l "perl".toList then .perlScript
  else .otherScript

/-- Content-classification part of `detect_file_type` (detector.rs lines
57-110), operating on the at-most-512-byte buffer read from the file.  When
the shebang bytes are not valid UTF-8 the `if let` in the source falls
through to the whole-buffer UTF-8 check. -/
def classifyBuffer (buffer : List Nat) : FileType :=
  if buffer.take 4 = elfMagic then .elfBinary
  else
    match
      (if buffer.take 2 = [0x23, 0x21] then
        let nl := (buffer.findIdx? (fun b => b = 10)).getD buffer.length
        let shebang := (buffer.take nl).drop 2
        (utf8Decode? shebang).map fun s => shebangType (toLowerAscii s)
      else none) with
    | some t => t
    | none => if (utf8Decode? buffer).isSome then .otherText else .otherBinary

/-- Entry of the abstract filesystem at one path. -/
inductive FileEntry where
  | symlink (target : Path)
  | file (content : List Nat)
  | directory
  | missing
deriving DecidableEq

/-- Abstract filesystem: a total map from paths to entries. -/
abbrev FileSystem := Path → FileEntry

/-- Source `SymseekError` variants reachable from the resolver, plus the
model-only `fuelExhausted`. -/
inductive RErr where
  | ioError (path : Path)
  | invalidInput (message : List Char)
  | symlinkResolution (path : Path)
  | cycleDetected (path : Path)
  | fuelExhausted
deriving DecidableEq

/-- Source `detect_file_type` (detector.rs lines 44-111): symlink metadata
first (a symlink classifies without a content read), then the 512-byte prefix
is classified.  Missing files fail the metadata read; directories fail the
content read. -/
def detect_file_type (fs : FileSystem) (p : Path) : Except RErr FileType :=
  match fs p with
  | .missing => .error (.ioError p)
  | .symlink _ => .ok .symlink
  | .directory => .error (.ioError p)
  | .file c => .ok (classifyBuffer (c.take 512))

theorem shebangType_ne_symlink (l : List Char) : shebangType l ≠ .symlink := by
  unfold shebangType
  split
  · intro h; cases h
  split
  · intro h; cases h
  split <;> intro h <;> cases h

theorem classifyBuffer_ne_symlink (buffer : List Nat) :
    classifyBuffer buffer ≠ .symlink := by
  unfold classifyBuffer
  split
  · intro h; cases h
  split
  · next t heq =>
    split at heq
    · rcases Option.map_eq_some'.mp heq with ⟨s, _, rfl⟩
      exact shebangType_ne_symlink _
    · cases heq
  · split <;> intro h <;> cases h

/-- Rust `fs::metadata(path)?.len()` as used by the detectors.  The resolver
only invokes the detectors on paths already classified as regular files, so
the length is taken from the entry at the path itself. -/
def metadataLen (fs : FileSystem) (p : Path) : Except RErr Nat :=
  match fs p with
  | .file c => .ok c.length
  | .directory => .ok 0
  | _ => .error (.ioError p)

/-- Shared content-acquisition step of both detectors: `fs::read_to_string`
when the bytes are valid UTF-8, else `fs::read` followed by
`extract_strings_from_binary`. -/
def readWrapperContent (fs : FileSystem) (p : Path) : Except RErr (List Char) :=
  match fs p with
  | .file c =>
    match utf8Decode? c with
    | some s => .ok s
    | none => .ok (extract_strings_from_binary c)
  | _ => .error (.ioError p)

/-- The 1 MiB `MAX_FILE_SIZE` ceiling shared by the detectors. -/
def maxFileSize : Nat := 1048576

/-- ASCII whitespace, modelling the regex class `\s` over the ASCII content
the detectors scan. -/
def isWhitespaceChar (c : Char) : Bool :=
  c = ' ' ∨ c = '\t' ∨ c = '\n' ∨ c = '\x0d' ∨ c = '\x0b' ∨ c = '\x0c'

/-- Longest prefix satisfying the predicate together with the rest (the span
operation used by the maximal-munch regex scanners). -/
def takeWhileCl (p : Char → Bool) : List Char → List Char × List Char
  | [] => ([], [])
  | c :: cs =>
    if p c then
      let r := takeWhileCl p cs
      (c :: r.1, r.2)
    else ([], c :: cs)

/-- One attempt of the regex `makeCWrapper\s+'([^']+)'` anchored at the head
of the input, returning the first capture group on success.  Maximal munch is
equivalent to the regex semantics here because each repeated class excludes
the character that must follow it. -/
def makeCWrapperMatchAt (s : List Char) : Option (List Char) :=
  if "makeCWrapper".toList.isPrefixOf s then
    let afterKey := s.drop 12
    let ws := takeWhileCl isWhitespaceChar afterKey
    if ws.1 = [] then none
    else
      match ws.2 with
      | '\'' :: afterQuote =>
        let body := takeWhileCl (fun c => ¬ c = '\'') afterQuote
        if body.1 = [] then none
        else
          match body.2 with
          | '\'' :: _ => some body.1
          | _ => none
      | _ => none
  else none

/-- Leftmost match of `MAKE_C_WRAPPER_PATH_REGEX` over the whole content
(`Regex::captures`), returning the capture group. -/
def makeCWrapperCapture? : List Char → Option (List Char)
  | [] => none
  | c :: rest =>
    match makeCWrapperMatchAt (c :: rest) with
    | some cap => some cap
    | none => makeCWrapperCapture? rest

/-- Normalization `content.replace("\\\n", "")` removing backslash-newline
line continuations (nix_binary_wrapper.rs line 54). -/
def removeLineContinuations : List Char → List Char
  | '\\' :: '\n' :: rest => removeLineContinuations rest
  | c :: rest => c :: removeLineContinuations rest
  | [] => []

/-- Source `NixBinaryWrapperDetector::detect` (nix_binary_wrapper.rs):
size ceiling, content acquisition, `makeCWrapper` marker check, regex capture,
`/nix/store/` containment check, and the self-reference check. -/
def nix_binary_wrapper_detect (fs : FileSystem) (p : Path) : Except RErr (Option Path) :=
  match metadataLen fs p with
  | .error e => .error e
  | .ok len =>
    if len > maxFileSize then .ok none
    else
      match readWrapperContent fs p with
      | .error e => .error e
      | .ok content =>
        if containsSubstr content "makeCWrapper".toList then
          match makeCWrapperCapture? (removeLineContinuations content) with
          | none => .ok none
          | some cand =>
            if containsSubstr cand "/nix/store/".toList then
              if cand = p then .ok none else .ok (some cand)
            else .ok none
        else .ok none

/-- Character class `[a-z0-9]` of the store-path hash. -/
def isLowerAlnum (c : Char) : Bool := ('a' ≤ c ∧ c ≤ 'z') ∨ ('0' ≤ c ∧ c ≤ '9')

/-- Character class `[^/\s]` of store-path name and segment characters. -/
def isSegmentChar (c : Char) : Bool := ¬ (c = '/' ∨ isWhitespaceChar c = true)

/-- The literal `/nix/store/` head of `NIX_STORE_PATH_REGEX`. -/
def nixStoreLit : List Char := "/nix/store/".toList

/-- Greedy `(?:/[^/\s]+)*` tail of `NIX_STORE_PATH_REGEX`: consume as many
`/segment` groups as possible, returning the consumed characters and the
rest.  Fuel is bounded by the input length, which every iteration shrinks. -/
def consumeSegments : Nat → List Char → List Char × List Char
  | 0, s => ([], s)
  | fuel + 1, s =>
    match s with
    | '/' :: rest =>
      let seg := takeWhileCl isSegmentChar rest
      if seg.1 = [] then ([], s)
      else
        let more := consumeSegments fuel seg.2
        ('/' :: (seg.1 ++ more.1), more.2)
    | _ => ([], s)

/-- One attempt of `NIX_STORE_PATH_REGEX`
(`/nix/store/[a-z0-9]+-[^/\s]+(?:/[^/\s]+)*`) anchored at the head of the
input, returning the matched text and the rest of the input. -/
def nixStoreMatchAt (s : List Char) : Option (List Char × List Char) :=
  if nixStoreLit.isPrefixOf s then
    let s1 := s.drop 11
    let hash := takeWhileCl isLowerAlnum s1
    if hash.1 = [] then none
    else
      match hash.2 with
      | '-' :: s2 =>
        let name := takeWhileCl isSegmentChar s2
        if name.1 = [] then none
        else
          let segs := consumeSegments s2.length name.2
          some (nixStoreLit ++ hash.1 ++ '-' :: (name.1 ++ segs.1), segs.2)
      | _ => none
  else none

/-- All matches of `NIX_STORE_PATH_REGEX` in order (`captures_iter`):
leftmost, non-overlapping, resuming after each match.  Fuel is bounded by the
input length, which every step shrinks. -/
def nixStoreMatchList : Nat → List Char → List (List Char)
  | 0, _ => []
  | fuel + 1, s =>
    match s with
    | [] => []
    | c :: rest =>
      match nixStoreMatchAt (c :: rest) with
      | some m => m.1 :: nixStoreMatchList fuel m.2
      | none => nixStoreMatchList fuel rest

/-- All `NIX_STORE_PATH_REGEX` matches of a content string. -/
def nixStoreMatches (s : List Char) : List (List Char) := nixStoreMatchList s.length s

/-- Trailing characters stripped from a store-path candidate
(nix_program_name.rs lines 49-54). -/
def isTrailingJunk (c : Char) : Bool := c = '"' ∨ c = '\'' ∨ c = '$'

/-- Strip trailing quote/`$` characters from a candidate. -/
def stripTrailing (s : List Char) : List Char := (s.reverse.dropWhile isTrailingJunk).reverse

/-- Split a path string at every `/`. -/
def splitSlash : List Char → List (List Char)
  | [] => [[]]
  | c :: rest =>
    if c = '/' then [] :: splitSlash rest
    else
      match splitSlash rest with
      | [] => [[c]]
      | s :: ss => (c :: s) :: ss

/-- Rust `Path::file_name`: the final normal component, `none` for the root
path or a path ending in `..` (empty and `.` components are skipped). -/
def fileNameOf (p : Path) : Option (List Char) :=
  let comps := (splitSlash p).filter fun c => ¬ (c = [] ∨ c = ['.'])
  match comps.getLast? with
  | none => none
  | some c => if c = ['.', '.'] then none else some c

/-- Source `normalize_program_name` (detector.rs lines 136-150): strip one
leading `.`, then a trailing `-unwrapped` suffix, else a trailing `-wrapped`
suffix. -/
def normalize_program_name (name : List Char) : List Char :=
  let r := match name with | '.' :: rest => rest | other => other
  if "-unwrapped".toList.isSuffixOf r then r.take (r.length - 10)
  else if "-wrapped".toList.isSuffixOf r then r.take (r.length - 8)
  else r

/-- Source `programs_match` (detector.rs lines 158-170): both file names
normalize to the same non-empty name (a missing file name counts as empty). -/
def programs_match (current candidate : Path) : Bool :=
  let cn := ((fileNameOf current).map normalize_program_name).getD []
  let dn := ((fileNameOf candidate).map normalize_program_name).getD []
  ¬ cn = [] ∧ cn = dn

/-- Rust `Path::is_file` on a candidate: the entry at that path is a regular
file. -/
def isFileAt (fs : FileSystem) (p : Path) : Bool :=
  match fs p with
  | .file _ => true
  | _ => false

/-- Candidate loop of `NixProgramNameDetector::detect`: first store-path
match that, after trailing-junk stripping, name-matches the probed path, is a
regular file, and differs from the probed path. -/
def firstMatchingCandidate (fs : FileSystem) (p : Path) : List (List Char) → Option Path
  | [] => none
  | m :: rest =>
    let cand := stripTrailing m
    if programs_match p cand ∧ isFileAt fs cand ∧ ¬ cand = p then some cand
    else firstMatchingCandidate fs p rest

/-- Source `NixProgramNameDetector::detect` (nix_program_name.rs): skip paths
whose string form lacks `nix` before any filesystem access, then size
ceiling, content acquisition, and the candidate scan. -/
def nix_program_name_detect (fs : FileSystem) (p : Path) : Except RErr (Option Path) :=
  if containsSubstr p "nix".toList then
    match metadataLen fs p with
    | .error e => .error e
    | .ok len =>
      if len > maxFileSize then .ok none
      else
        match readWrapperContent fs p with
        | .error e => .error e
        | .ok content => .ok (firstMatchingCandidate fs p (nixStoreMatches content))
  else .ok none

/-- Source `LinkType`, `WrapperKind`, `ScriptType`, `FileKind` (types.rs). -/
inductive ScriptType where
  | shell
  | python
  | perl
  | unknown
deriving DecidableEq

/-- Wrapper kind: binary wrapper or script wrapper of a given script type. -/
inductive WrapperKind where
  | binary
  | text (t : ScriptType)
deriving DecidableEq

/-- Terminal file kind as seen from outside. -/
inductive FileKind where
  | binary
  | text
deriving DecidableEq

/-- Kind of one chain hop. -/
inductive LinkType where
  | symlink
  | wrapper (k : WrapperKind)
  | terminal (k : FileKind)
deriving DecidableEq

/-- Source `SymlinkNode` (types.rs); the reserved `metadata` field is always
`None` in the resolver and is omitted. -/
structure SymlinkNode where
  target : Path
  is_final : Bool
  link_type : LinkType
deriving DecidableEq

/-- Source `SymlinkChain` (types.rs). -/
structure SymlinkChain where
  origin : Path
  links : List SymlinkNode
deriving DecidableEq

/-- Source `SymlinkChain::new`. -/
def SymlinkChain.new (origin : Path) : SymlinkChain := ⟨origin, []⟩

/-- Source `SymlinkChain::add_link`. -/
def SymlinkChain.add_link (c : SymlinkChain) (target : Path) (isf : Bool)
    (lt : LinkType) : SymlinkChain :=
  ⟨c.origin, c.links ++ [⟨target, isf, lt⟩]⟩

/-- The `..` path component. -/
def dotdot : List Char := ['.', '.']

/-- One step of the `path_clean::clean` component fold: skip empty and `.`
components, resolve `..` against the stack (dropping it at the root of an
absolute path), push normal components.  The stack is kept reversed. -/
def cleanFoldStep (abs : Bool) (stack : List (List Char)) (c : List Char) :
    List (List Char) :=
  if c = [] ∨ c = ['.'] then stack
  else if c = dotdot then
    match stack with
    | [] => if abs then [] else [dotdot]
    | top :: rest => if top = dotdot then dotdot :: stack else rest
  else c :: stack

/-- Rust `path_clean::clean`: lexical normalization of `.`/`..`/empty
components, with `.` for an empty relative result and `/` for an empty
absolute result. -/
def cleanPath (p : Path) : Path :=
  let abs := isAbsolutePath p
  let comps := ((splitSlash p).foldl (cleanFoldStep abs) []).reverse
  if abs then '/' :: List.intercalate ['/'] comps
  else if comps = [] then ['.']
  else List.intercalate ['/'] comps

/-- Rust `Path::parent`: drop the final component; `none` for the root and
the empty path. -/
def parentPath (p : Path) : Option Path :=
  if p = [] ∨ p = ['/'] then none
  else
    match p.reverse.dropWhile (fun c => ¬ c = '/') with
    | [] => some []
    | _ :: rest => if rest = [] then some ['/'] else some rest.reverse

/-- Rust `Path::join` for a relative right-hand side: insert a separator. -/
def joinPath (a b : Path) : Path := if a = [] then b else a ++ '/' :: b

/-- Source `resolve_target` (resolver.rs lines 150-159): an absolute symlink
target is taken as is; a relative one is joined to the parent directory
(defaulting to `/`) and lexically cleaned. -/
def resolve_target (current target : Path) : Path :=
  if isAbsolutePath target then target
  else cleanPath (joinPath ((parentPath current).getD ['/']) target)

/-- Source `process_symlink` (resolver.rs lines 77-101): `read_link` returns
the target for a symlink, the `InvalidInput` error kind (mapped to `false`)
for a non-symlink entry, and any other failure is fatal. -/
def process_symlink (fs : FileSystem) (current : Path) : Except RErr (Bool × Path) :=
  match fs current with
  | .symlink t => .ok (true, resolve_target current t)
  | .file _ => .ok (false, current)
  | .directory => .ok (false, current)
  | .missing => .error (.symlinkResolution current)

/-- Source `detect_wrapper` (resolver.rs lines 103-129): for shell scripts
and ELF binaries run `NixBinaryWrapperDetector` then `NixProgramNameDetector`
in that order; every other type yields no wrapper. -/
def detect_wrapper (fs : FileSystem) (current : Path) (file_type : FileType) :
    Except RErr (Option (Path × LinkType)) :=
  match file_type with
  | .shellScript =>
    match nix_binary_wrapper_detect fs current with
    | .error e => .error e
    | .ok (some t) => .ok (some (t, .wrapper (.text .shell)))
    | .ok none =>
      match nix_program_name_detect fs current with
      | .error e => .error e
      | .ok r => .ok (r.map fun t => (t, .wrapper (.text .shell)))
  | .elfBinary =>
    match nix_binary_wrapper_detect fs current with
    | .error e => .error e
    | .ok (some t) => .ok (some (t, .wrapper .binary))
    | .ok none =>
      match nix_program_name_detect fs current with
      | .error e => .error e
      | .ok r => .ok (r.map fun t => (t, .wrapper .binary))
  | _ => .ok none

/-- Link kind chosen by `add_symlink_to_chain` (resolver.rs lines 132-136):
note that only `ElfBinary` maps to a binary terminal here. -/
def symlink_link_type : FileType → LinkType
  | .symlink => .symlink
  | .elfBinary => .terminal .binary
  | _ => .terminal .text

/-- Source `add_symlink_to_chain` (resolver.rs lines 131-139): hop for the
resolved path of a followed symlink; final exactly when the path is not
itself a symlink. -/
def add_symlink_to_chain (chain : SymlinkChain) (p : Path) (file_type : FileType) :
    SymlinkChain :=
  chain.add_link p (if file_type = .symlink then false else true)
    (symlink_link_type file_type)

/-- Link kind chosen by `add_terminal_node` (resolver.rs lines 143-146):
both binary classifications map to a binary terminal. -/
def terminal_link_type : FileType → LinkType
  | .elfBinary => .terminal .binary
  | .otherBinary => .terminal .binary
  | _ => .terminal .text

/-- Source `add_terminal_node` (resolver.rs lines 141-148). -/
def add_terminal_node (chain : SymlinkChain) (p : Path) (file_type : FileType) :
    SymlinkChain :=
  chain.add_link p true (terminal_link_type file_type)

/-- The traversal loop of `resolve` (resolver.rs lines 36-68), with explicit
fuel standing in for the unbounded `loop`: cycle check and visited insertion,
symlink processing, classification, wrapper detection, then the
symlink/terminal append decision. -/
def resolveLoop (fs : FileSystem) :
    Nat → Path → List Path → SymlinkChain → Except RErr SymlinkChain
  | 0, _, _, _ => .error .fuelExhausted
  | fuel + 1, current, visited, chain =>
    if current ∈ visited then .error (.cycleDetected current)
    else
      match process_symlink fs current with
      | .error e => .error e
      | .ok (isSym, cur) =>
        match detect_file_type fs cur with
        | .error e => .error e
        | .ok file_type =>
          match detect_wrapper fs cur file_type with
          | .error e => .error e
          | .ok (some (target, link_type)) =>
            resolveLoop fs fuel target (current :: visited)
              (chain.add_link cur false link_type)
          | .ok none =>
            if isSym then
              let chain2 := add_symlink_to_chain chain cur file_type
              if file_type = .symlink then
                resolveLoop fs fuel cur (current :: visited) chain2
              else .ok chain2
            else .ok (add_terminal_node chain cur file_type)

/-- Message of the `InvalidInput` error raised for a relative input. -/
def invalidMsg : List Char := "Path must be absolute".toList

/-- Source `resolve` (resolver.rs lines 22-75): reject relative inputs
before any filesystem access, then run the traversal loop from the input
path with an empty visited set and an empty chain rooted at the input. -/
def resolve (fs : FileSystem) (fuel : Nat) (path : Path) : Except RErr SymlinkChain :=
  if isAbsolutePath path then
    resolveLoop fs fuel path [] (SymlinkChain.new path)
  else .error (.invalidInput invalidMsg)

/-! ### Concrete fixture filesystems used in counterexamples and witnesses -/

/-- Fixture: a single plain text file at `/f`. -/
def fsPlainFile : FileSystem := fun p =>
  if p = "/f".toList then .file ("hello".toList.map Char.toNat) else .missing

/-- Fixture: `/l` is a symlink to `/b`, whose single `0xFF` byte classifies as
`OtherBinary`. -/
def fsSymlinkOtherBinary : FileSystem := fun p =>
  if p = "/l".toList then .symlink "/b".toList
  else if p = "/b".toList then .file [255]
  else .missing

/-- Shell-script content carrying a `makeCWrapper` invocation whose quoted
target is the relative path `foo/nix/store/x`. -/
def relWrapContent : List Char :=
  "#!/bin/sh".toList ++ '\n' :: "makeCWrapper ".toList ++
    '\'' :: "foo/nix/store/x".toList ++ ['\'']

/-- Fixture: `/w` is a wrapper script naming the relative target
`foo/nix/store/x`, which exists as a plain file. -/
def fsRelativeWrapper : FileSystem := fun p =>
  if p = "/w".toList then .file (relWrapContent.map Char.toNat)
  else if p = "foo/nix/store/x".toList then .file ("hi".toList.map Char.toNat)
  else .missing

/-- Fixture: mutual two-node symlink cycle `/a` to `/b` to `/a`. -/
def fsTwoCycle : FileSystem := fun p =>
  if p = "/a".toList then .symlink "/b".toList
  else if p = "/b".toList then .symlink "/a".toList
  else .missing

/-- Fixture: a three-symlink chain `/l1`, `/l2`, `/l3` ending in the plain
text file `/t`. -/
def fsChainThree : FileSystem := fun p =>
  if p = "/l1".toList then .symlink "/l2".toList
  else if p = "/l2".toList then .symlink "/l3".toList
  else if p = "/l3".toList then .symlink "/t".toList
  else if p = "/t".toList then .file ("hello".toList.map Char.toNat)
  else .missing

/-- Fixture: `/l` is a symlink to the plain text file `/t`. -/
def fsSymlinkText : FileSystem := fun p =>
  if p = "/l".toList then .symlink "/t".toList
  else if p = "/t".toList then .file ("hello".toList.map Char.toNat)
  else .missing

/-! ### The string extractor, written from the specification text -/

/-- Printable ASCII byte (32-126). -/
def isPrintableByte (b : Nat) : Bool := decide (32 ≤ b ∧ b ≤ 126)

/-- Modelled from the spec text of the StringExtractor for comparison with the
source `extract_strings_from_binary`: the concatenation, in input order, of
each non-empty maximal run of printable ASCII bytes that is immediately
followed by a null byte, each run followed by one newline; a run broken by
any other non-printable byte, or still open at end of input, contributes
nothing. -/
def extract_printable_spec (bs : List Nat) : List Char :=
  if bs.dropWhile isPrintableByte = [] then []
  else
    (if (bs.dropWhile isPrintableByte).headI = 0 ∧ ¬ bs.takeWhile isPrintableByte = [] then
      (bs.takeWhile isPrintableByte).map Char.ofNat ++ ['\n']
    else []) ++ extract_printable_spec (bs.dropWhile isPrintableByte).tail
termination_by bs.length
decreasing_by
  have hle : (bs.dropWhile isPrintableByte).length ≤ bs.length :=
    (List.dropWhile_suffix isPrintableByte).length_le
  have hpos : 0 < (bs.dropWhile isPrintableByte).length := List.length_pos.mpr (by assumption)
  have htl : (bs.dropWhile isPrintableByte).tail.length =
      (bs.dropWhile isPrintableByte).length - 1 := List.length_tail _
  omega

theorem extractLoop_eq_spec (bs : List Nat) :
    ∀ cur : List Nat, (∀ b ∈ cur, isPrintableByte b = true) →
      extractLoop bs cur = extract_printable_spec (cur ++ bs) := by
  induction bs with
  | nil =>
    intro cur hcur
    have hdrop : (cur ++ ([] : List Nat)).dropWhile isPrintableByte = [] := by
      rw [List.dropWhile_eq_nil_iff]
      intro x hx
      exact hcur x (by simpa using hx)
    rw [extract_printable_spec, hdrop]
    simp [extractLoop]
  | cons b rest ih =>
    intro cur hcur
    have hdropcur : ∀ t : List Nat,
        (cur ++ t).dropWhile isPrintableByte = t.dropWhile isPrintableByte :=
      fun t => List.dropWhile_append_of_pos hcur
    have htakecur : ∀ t : List Nat,
        (cur ++ t).takeWhile isPrintableByte = cur ++ t.takeWhile isPrintableByte :=
      fun t => List.takeWhile_append_of_pos hcur
    have hih := ih [] (by simp)
    rw [List.nil_append] at hih
    by_cases hb0 : b = 0
    · subst hb0
      have hnp : isPrintableByte 0 = false := by decide
      have hdrop : (cur ++ 0 :: rest).dropWhile isPrintableByte = 0 :: rest := by
        rw [hdropcur, List.dropWhile_cons_of_neg (by simp [hnp])]
      have htake : (cur ++ 0 :: rest).takeWhile isPrintableByte = cur := by
        rw [htakecur, List.takeWhile_cons_of_neg (by simp [hnp]), List.append_nil]
      rw [extract_printable_spec, hdrop, htake]
      by_cases hcure : cur = []
      · subst hcure
        simp [extractLoop, hih]
      · simp [extractLoop, hcure, hih]
    · by_cases hbp : isPrintableByte b = true
      · have hstep : extractLoop (b :: rest) cur = extractLoop rest (cur ++ [b]) := by
          have h32 : 32 ≤ b ∧ b ≤ 126 := of_decide_eq_true hbp
          simp [extractLoop, hb0, h32]
        rw [hstep, ih (cur ++ [b]) ?hall]
        · simp
        · intro x hx
          rcases List.mem_append.mp hx with h | h
          · exact hcur x h
          · simp at h; subst h; exact hbp
      · have hnp : isPrintableByte b = false := by
          cases hpb : isPrintableByte b
          · rfl
          · exact absurd hpb hbp
        have hstep : extractLoop (b :: rest) cur = extractLoop rest [] := by
          have h32 : ¬ (32 ≤ b ∧ b ≤ 126) := fun hc => hbp (decide_eq_true hc)
          simp [extractLoop, hb0, h32]
        have hdrop : (cur ++ b :: rest).dropWhile isPrintableByte = b :: rest := by
          rw [hdropcur, List.dropWhile_cons_of_neg (by simp [hnp])]
        rw [hstep, extract_printable_spec, hdrop]
        simp [hb0, hih]

/-! ### Step lemmas for the traversal loop -/

theorem resolveLoop_cycle (fs : FileSystem) (fuel : Nat) (current : Path)
    (visited : List Path) (chain : SymlinkChain) (h : current ∈ visited) :
    resolveLoop fs (fuel + 1) current visited chain =
      .error (.cycleDetected current) := by
  simp [resolveLoop, h]

theorem resolveLoop_step (fs : FileSystem) (fuel : Nat) (current cur : Path)
    (visited : List Path) (chain : SymlinkChain) (isSym : Bool) (ft : FileType)
    (hnv : current ∉ visited)
    (hps : process_symlink fs current = .ok (isSym, cur))
    (hft : detect_file_type fs cur = .ok ft)
    (hw : detect_wrapper fs cur ft = .ok none) :
    resolveLoop fs (fuel + 1) current visited chain =
      if isSym then
        if ft = .symlink then
          resolveLoop fs fuel cur (current :: visited) (add_symlink_to_chain chain cur ft)
        else .ok (add_symlink_to_chain chain cur ft)
      else .ok (add_terminal_node chain cur ft) := by
  rw [resolveLoop, if_neg hnv]
  simp only [hps, hft, hw]

theorem resolveLoop_wrapper_step (fs : FileSystem) (fuel : Nat)
    (current cur target : Path) (visited : List Path) (chain : SymlinkChain)
    (isSym : Bool) (ft : FileType) (lt : LinkType)
    (hnv : current ∉ visited)
    (hps : process_symlink fs current = .ok (isSym, cur))
    (hft : detect_file_type fs cur = .ok ft)
    (hw : detect_wrapper fs cur ft = .ok (some (target, lt))) :
    resolveLoop fs (fuel + 1) current visited chain =
      resolveLoop fs fuel target (current :: visited) (chain.add_link cur false lt) := by
  rw [resolveLoop, if_neg hnv]
  simp only [hps, hft, hw]

theorem process_symlink_of_symlink (fs : FileSystem) (current t : Path)
    (h : fs current = .symlink t) (habs : isAbsolutePath t = true) :
    process_symlink fs current = .ok (true, t) := by
  unfold process_symlink resolve_target
  simp [h, habs]

theorem detect_wrapper_symlink (fs : FileSystem) (p : Path) :
    detect_wrapper fs p .symlink = .ok none := rfl

theorem resolveLoop_symlink_cont (fs : FileSystem) (fuel : Nat) (current t u : Path)
    (visited : List Path) (chain : SymlinkChain)
    (hnv : current ∉ visited)
    (hcur : fs current = .symlink t) (habs : isAbsolutePath t = true)
    (htgt : fs t = .symlink u) :
    resolveLoop fs (fuel + 1) current visited chain =
      resolveLoop fs fuel t (current :: visited) (chain.add_link t false .symlink) := by
  rw [resolveLoop_step fs fuel current t visited chain true .symlink hnv
    (process_symlink_of_symlink fs current t hcur habs)
    (by unfold detect_file_type; rw [htgt]) (detect_wrapper_symlink fs t)]
  simp [add_symlink_to_chain, symlink_link_type]

/-! ### C6: mutual two-node symlink cycles fail with `CycleDetected` -/

/-- C6: for distinct absolute paths `a` and `b` that are symlinks to each
other, `resolve a` fails with `CycleDetected` naming the revisited path `a`
(three loop iterations suffice, whatever extra fuel is available), and no
chain is returned. -/
theorem two_cycle_detected (fs : FileSystem) (a b : Path) (fuel : Nat)
    (hne : a ≠ b) (ha : fs a = .symlink b) (hb : fs b = .symlink a)
    (haa : isAbsolutePath a = true) (hba : isAbsolutePath b = true)
    (hfuel : 3 ≤ fuel) :
    resolve fs fuel a = .error (.cycleDetected a) := by
  obtain ⟨k, rfl⟩ : ∃ k, fuel = k + 3 := ⟨fuel - 3, by omega⟩
  unfold resolve
  rw [haa]
  show resolveLoop fs (k + 2 + 1) a [] (SymlinkChain.new a) = _
  rw [resolveLoop_symlink_cont fs (k + 2) a b a [] _ (by simp) ha hba hb]
  show resolveLoop fs (k + 1 + 1) b [a] _ = _
  rw [resolveLoop_symlink_cont fs (k + 1) b a b [a] _ (by simp [Ne.symm hne]) hb haa ha]
  exact resolveLoop_cycle fs k a [b, a] _ (by simp)

/-- Witness for C6 at the concrete two-cycle fixture. -/
theorem two_cycle_detected_witness :
    ("/a".toList ≠ "/b".toList ∧ fsTwoCycle "/a".toList = .symlink "/b".toList ∧
      fsTwoCycle "/b".toList = .symlink "/a".toList) ∧
    resolve fsTwoCycle 3 "/a".toList = .error (.cycleDetected "/a".toList) :=
  ⟨⟨by decide, by decide, by decide⟩,
    two_cycle_detected fsTwoCycle "/a".toList "/b".toList 3 (by decide) (by decide)
      (by decide) (by decide) (by decide) (by omega)⟩

/-! ### C7: relative inputs are rejected before any filesystem access -/

/-- C7: for every non-absolute input path, `resolve` fails with the
`InvalidInput` error.  The statement is universally quantified over the
filesystem, so the result is independent of every entry: no metadata, link,
or content read can influence it, which is the shallow-embedding rendering of
"without touching the filesystem". -/
theorem relative_input_invalid (fs : FileSystem) (fuel : Nat) (p : Path)
    (h : isAbsolutePath p = false) :
    resolve fs fuel p = .error (.invalidInput invalidMsg) := by
  unfold resolve
  rw [h]
  simp

/-- Witness for C7 on a concrete relative path (with a filesystem that would
error on any read, the result is still `InvalidInput`). -/
theorem relative_input_invalid_witness :
    isAbsolutePath "rel/p".toList = false ∧
      resolve (fun _ => .missing) 5 "rel/p".toList = .error (.invalidInput invalidMsg) :=
  ⟨by decide, relative_input_invalid (fun _ => .missing) 5 "rel/p".toList (by decide)⟩

/-! ### C8: the ELF magic always classifies as `ElfBinary` -/

/-- C8: every non-symlink regular file whose content starts with the ELF
magic bytes classifies as `ElfBinary`, whatever the remaining content is
(shebang-like continuations and invalid UTF-8 included): the magic check on
the 512-byte buffer sees exactly the first four content bytes and
short-circuits every later check. -/
theorem elf_magic_classifies (fs : FileSystem) (p : Path) (c : List Nat)
    (hf : fs p = .file c) (hm : c.take 4 = elfMagic) :
    detect_file_type fs p = .ok .elfBinary := by
  unfold detect_file_type
  rw [hf]
  have h4 : (c.take 512).take 4 = elfMagic := by
    rw [List.take_take]
    simpa using hm
  simp [classifyBuffer, h4]

/-- Fixture: an ELF file whose tail is a shebang-like continuation and
invalid UTF-8. -/
def fsElfFile : FileSystem := fun p =>
  if p = "/e".toList then
    .file ([0x7F, 0x45, 0x4C, 0x46] ++ "#!/bin/sh".toList.map Char.toNat ++ [0xFF])
  else .missing

/-- Witness for C8 at a concrete ELF-magic file with adversarial remaining
content. -/
theorem elf_magic_classifies_witness :
    fsElfFile "/e".toList =
      .file ([0x7F, 0x45, 0x4C, 0x46] ++ "#!/bin/sh".toList.map Char.toNat ++ [0xFF]) ∧
    detect_file_type fsElfFile "/e".toList = .ok .elfBinary :=
  ⟨by decide,
    elf_magic_classifies fsElfFile "/e".toList
      ([0x7F, 0x45, 0x4C, 0x46] ++ "#!/bin/sh".toList.map Char.toNat ++ [0xFF])
      (by decide) (by decide)⟩

/-! ### C9: the string extractor agrees with its specification -/

/-- C9: `extract_strings_from_binary` emits exactly the non-empty maximal
printable-ASCII runs that are immediately followed by a null byte, in input
order, each followed by one newline; runs broken by any other non-printable
byte or still open at end of input contribute nothing.  Stated as equality
with `extract_printable_spec`, the direct rendering of the specification
sentence. -/
theorem extract_printable_matches_spec (bytes : List Nat) :
    extract_strings_from_binary bytes = extract_printable_spec bytes := by
  have h := extractLoop_eq_spec bytes [] (by simp)
  rw [List.nil_append] at h
  exact h

/-! ### C10: the name-matching detector skips paths without `nix` -/

/-- C10: when the probed path's string form does not contain `nix`, the
name-matching wrapper detector answers `None`.  The statement is universally
quantified over the filesystem, so the answer is independent of the file's
metadata and content: no read occurs, and the detector cannot fire even if
the content holds an existing, name-matching store path. -/
theorem non_nix_path_skips_detect (fs : FileSystem) (p : Path)
    (h : containsSubstr p "nix".toList = false) :
    nix_program_name_detect fs p = .ok none := by
  unfold nix_program_name_detect
  rw [h]
  simp

/-- Fixture: a non-nix path whose content nevertheless holds an existing,
name-matching store path (the store file itself also exists). -/
def fsNonNixWithStoreContent : FileSystem := fun p =>
  if p = "/usr/bin/foo".toList then
    .file (("#!/bin/sh".toList ++ '\n' :: "/nix/store/abc123-foo/bin/foo".toList).map Char.toNat)
  else if p = "/nix/store/abc123-foo/bin/foo".toList then
    .file ("x".toList.map Char.toNat)
  else .missing

/-- Witness for C10: the detector returns no match on `/usr/bin/foo` even
though its content names an existing store path with a matching name. -/
theorem non_nix_path_skips_detect_witness :
    containsSubstr "/usr/bin/foo".toList "nix".toList = false ∧
      nix_program_name_detect fsNonNixWithStoreContent "/usr/bin/foo".toList = .ok none :=
  ⟨by decide,
    non_nix_path_skips_detect fsNonNixWithStoreContent "/usr/bin/foo".toList (by decide)⟩

/-! ### C2: the was-symlink step depends on the target's classification -/

/-- Counterexample to C2 as stated: `/l` is a symlink to the plain text file
`/t`.  The single resolver iteration has was-symlink true and no wrapper
match, yet the appended hop is final with kind `Terminal(Text)` rather than
`(is_final = false, Symlink)`, and the traversal stops with a one-hop chain
instead of continuing to another iteration. -/
theorem symlink_step_counterexample :
    fsSymlinkText "/l".toList = .symlink "/t".toList ∧
    detect_file_type fsSymlinkText "/t".toList = .ok .otherText ∧
    detect_wrapper fsSymlinkText "/t".toList .otherText = .ok none ∧
    resolve fsSymlinkText 5 "/l".toList =
      .ok ⟨"/l".toList, [⟨"/t".toList, true, .terminal .text⟩]⟩ :=
  ⟨by decide, by decide, by decide, by decide⟩

/-- C2 (amended): in an iteration whose current path was a symlink and where
no wrapper detector matched the resolved target, the hop
`(target, is_final = false, Symlink)` is appended and the loop continues
precisely when the classifier returned `Symlink` for the resolved target;
for every other classification the iteration appends a final hop
(`Terminal(Binary)` for `ElfBinary`, `Terminal(Text)` otherwise) and the
traversal stops. -/
theorem symlink_step_behavior (fs : FileSystem) (fuel : Nat) (current cur : Path)
    (visited : List Path) (chain : SymlinkChain) (ft : FileType)
    (hnv : current ∉ visited)
    (hps : process_symlink fs current = .ok (true, cur))
    (hft : detect_file_type fs cur = .ok ft)
    (hw : detect_wrapper fs cur ft = .ok none) :
    resolveLoop fs (fuel + 1) current visited chain =
      if ft = .symlink then
        resolveLoop fs fuel cur (current :: visited) (chain.add_link cur false .symlink)
      else .ok (chain.add_link cur true (symlink_link_type ft)) := by
  rw [resolveLoop_step fs fuel current cur visited chain true ft hnv hps hft hw]
  by_cases h : ft = .symlink
  · subst h
    simp [add_symlink_to_chain, symlink_link_type]
  · simp [h, add_symlink_to_chain]

/-- Witness for C2 (amended) at the symlink-to-text fixture: the non-`Symlink`
classification makes the iteration emit a final terminal hop and stop. -/
theorem symlink_step_behavior_witness :
    resolveLoop fsSymlinkText 1 "/l".toList [] (SymlinkChain.new "/l".toList) =
      .ok ((SymlinkChain.new "/l".toList).add_link "/t".toList true
        (symlink_link_type .otherText)) := by
  have h := symlink_step_behavior fsSymlinkText 0 "/l".toList "/t".toList []
    (SymlinkChain.new "/l".toList) .otherText (by simp) (by decide) (by decide) (by decide)
  simpa using h

/-! ### C1: simple symlink chains resolve to exactly n hops -/

/-- Chain hypothesis: each listed path is a symlink to the next listed path,
the last to `q`. -/
def isLinkChain (fs : FileSystem) : List Path → Path → Prop
  | [], _ => True
  | p :: rest, q => fs p = .symlink (rest.headD q) ∧ isLinkChain fs rest q

/-- Hops produced when resolving a simple symlink chain: one intermediate
`Symlink` hop per link after the first, then the final hop at the terminal
file. -/
def chainHops : List Path → Path → FileType → List SymlinkNode
  | [], q, ftq => [⟨q, true, terminal_link_type ftq⟩]
  | [_], q, ftq => [⟨q, true, symlink_link_type ftq⟩]
  | _ :: r :: rest, q, ftq => ⟨r, false, .symlink⟩ :: chainHops (r :: rest) q ftq

theorem chainHops_length (q : Path) (ftq : FileType) :
    ∀ links : List Path, links ≠ [] → (chainHops links q ftq).length = links.length := by
  intro links
  induction links with
  | nil => intro h; exact absurd rfl h
  | cons p rest ih =>
    intro _
    cases rest with
    | nil => rfl
    | cons r rest2 =>
      have := ih (by simp)
      simp [chainHops] at this ⊢
      omega

theorem chainHops_finals (q : Path) (ftq : FileType) :
    ∀ links : List Path, links ≠ [] →
      (chainHops links q ftq).map SymlinkNode.is_final =
        List.replicate (links.length - 1) false ++ [true] := by
  intro links
  induction links with
  | nil => intro h; exact absurd rfl h
  | cons p rest ih =>
    intro _
    cases rest with
    | nil => rfl
    | cons r rest2 =>
      have hih := ih (by simp)
      simp only [chainHops, List.map_cons, hih]
      simp [List.replicate_succ]

theorem resolveLoop_chain (fs : FileSystem) (q : Path) (c : List Nat)
    (hq : fs q = .file c) (habsq : isAbsolutePath q = true)
    (hw : detect_wrapper fs q (classifyBuffer (c.take 512)) = .ok none) :
    ∀ (links : List Path) (visited : List Path) (chain : SymlinkChain) (fuel : Nat),
      links ≠ [] →
      links.Nodup →
      (∀ x ∈ links, x ∉ visited) →
      (∀ x ∈ links, isAbsolutePath x = true) →
      isLinkChain fs links q →
      links.length ≤ fuel →
      resolveLoop fs fuel links.headI visited chain =
        .ok ⟨chain.origin, chain.links ++ chainHops links q (classifyBuffer (c.take 512))⟩ := by
  intro links
  induction links with
  | nil => intro _ _ _ h; exact absurd rfl h
  | cons p rest ih =>
    intro visited chain fuel _ hnd hnv habs hchain hfuel
    obtain ⟨fuel, rfl⟩ : ∃ k, fuel = k + 1 := ⟨fuel - 1, by simp at hfuel; omega⟩
    cases rest with
    | nil =>
      have hfp : fs p = .symlink q := by
        have := hchain.1
        simpa using this
      have hstep := resolveLoop_step fs fuel p q visited chain true
        (classifyBuffer (c.take 512)) (hnv p (by simp))
        (process_symlink_of_symlink fs p q hfp habsq)
        (by unfold detect_file_type; rw [hq]) hw
      rw [List.headI_cons, hstep]
      have hne := classifyBuffer_ne_symlink (c.take 512)
      simp [hne, add_symlink_to_chain, chainHops, SymlinkChain.add_link]
    | cons r rest2 =>
      have hfp : fs p = .symlink r := by
        have := hchain.1
        simpa using this
      have habr : isAbsolutePath r = true := habs r (by simp)
      have htgt : fs r = .symlink (rest2.headD q) := hchain.2.1
      rw [List.headI_cons,
        resolveLoop_symlink_cont fs fuel p r (rest2.headD q) visited chain
          (hnv p (by simp)) hfp habr htgt]
      have hih := ih (p :: visited) (chain.add_link r false .symlink) fuel (by simp)
        (List.nodup_cons.mp hnd).2
        (by
          intro x hx
          have hxp : x ≠ p := by
            intro hxe
            exact (List.nodup_cons.mp hnd).1 (hxe ▸ hx)
          simp only [List.mem_cons]
          rintro (h | h)
          · exact hxp h
          · exact hnv x (List.mem_cons_of_mem p hx) h)
        (fun x hx => habs x (List.mem_cons_of_mem p hx))
        hchain.2
        (by simp at hfuel ⊢; omega)
      rw [List.headI_cons] at hih
      rw [hih]
      simp [SymlinkChain.add_link, chainHops]

/-- C1: a simple symlink chain of `n` distinct absolute links ending in a
plain file that no wrapper detector matches resolves from the first link to a
chain of exactly `n` hops whose `is_final` flags are false everywhere except
the last. -/
theorem chain_of_symlinks_resolves (fs : FileSystem) (links : List Path) (q : Path)
    (c : List Nat) (fuel : Nat)
    (hne : links ≠ []) (hnd : links.Nodup)
    (habs : ∀ x ∈ links, isAbsolutePath x = true) (habsq : isAbsolutePath q = true)
    (hchain : isLinkChain fs links q)
    (hq : fs q = .file c)
    (hw : detect_wrapper fs q (classifyBuffer (c.take 512)) = .ok none)
    (hfuel : links.length ≤ fuel) :
    ∃ hops : List SymlinkNode,
      resolve fs fuel links.headI = .ok ⟨links.headI, hops⟩ ∧
      hops.length = links.length ∧
      hops.map SymlinkNode.is_final = List.replicate (links.length - 1) false ++ [true] := by
  obtain ⟨p, rest, rfl⟩ := List.exists_cons_of_ne_nil hne
  refine ⟨chainHops (p :: rest) q (classifyBuffer (c.take 512)), ?_, ?_, ?_⟩
  · unfold resolve
    rw [List.headI_cons, habs p (by simp)]
    have := resolveLoop_chain fs q c hq habsq hw (p :: rest) [] (SymlinkChain.new p) fuel
      hne hnd (by simp) habs hchain hfuel
    rw [List.headI_cons] at this
    simpa [SymlinkChain.new] using this
  · exact chainHops_length q _ _ hne
  · exact chainHops_finals q _ _ hne

/-! ### Absoluteness of resolved paths (toward C4) -/

theorem isAbsolutePath_eq_true (p : Path) :
    isAbsolutePath p = true ↔ ∃ xs, p = '/' :: xs := by
  cases p with
  | nil => simp [isAbsolutePath]
  | cons c cs => simp [isAbsolutePath]

theorem cleanPath_absolute (p : Path) (h : isAbsolutePath p = true) :
    isAbsolutePath (cleanPath p) = true := by
  unfold cleanPath
  rw [h]
  simp [isAbsolutePath]

theorem joinPath_absolute (a b : Path) (h : isAbsolutePath a = true) :
    isAbsolutePath (joinPath a b) = true := by
  obtain ⟨as, rfl⟩ := (isAbsolutePath_eq_true a).mp h
  simp [joinPath, isAbsolutePath]

theorem parentPath_getD_absolute (p : Path) (h : isAbsolutePath p = true) :
    isAbsolutePath ((parentPath p).getD ['/']) = true := by
  obtain ⟨ps, rfl⟩ := (isAbsolutePath_eq_true p).mp h
  unfold parentPath
  by_cases h0 : ('/' :: ps : List Char) = [] ∨ ('/' :: ps : List Char) = ['/']
  · rw [if_pos h0]
    rfl
  rw [if_neg h0]
  cases hdw : ('/' :: ps).reverse.dropWhile (fun c => ¬ c = '/') with
  | nil =>
    exfalso
    rw [List.dropWhile_eq_nil_iff] at hdw
    have hmem : '/' ∈ ('/' :: ps).reverse := by simp
    have := hdw _ hmem
    simp at this
  | cons d rest =>
    by_cases hre : rest = []
    · subst hre
      simp [isAbsolutePath]
    · simp only [if_neg hre, Option.getD_some]
      have hsfx : (d :: rest) <:+ ('/' :: ps).reverse := by
        rw [← hdw]
        exact List.dropWhile_suffix _
      have hsfx2 : rest <:+ ('/' :: ps).reverse := (List.suffix_cons d rest).trans hsfx
      have hpre : rest.reverse <+: ('/' :: ps) := by
        have hr := hsfx2.reverse
        rwa [List.reverse_reverse] at hr
      obtain ⟨t, ht⟩ := hpre
      cases hrr : rest.reverse with
      | nil =>
        exfalso
        exact hre (by simpa using congrArg List.reverse hrr)
      | cons d2 ds =>
        rw [hrr] at ht
        have hd2 : d2 = '/' := by
          have := congrArg (fun l => l.headD ' ') ht
          simpa using this
        rw [hd2]
        simp [isAbsolutePath]

theorem resolve_target_absolute (current target : Path)
    (h : isAbsolutePath current = true) :
    isAbsolutePath (resolve_target current target) = true := by
  unfold resolve_target
  by_cases ht : isAbsolutePath target = true
  · rw [if_pos ht]
    exact ht
  · rw [if_neg ht]
    exact cleanPath_absolute _ (joinPath_absolute _ _ (parentPath_getD_absolute current h))

theorem process_symlink_abs (fs : FileSystem) (current : Path) (isSym : Bool)
    (cur : Path) (h : process_symlink fs current = .ok (isSym, cur))
    (habs : isAbsolutePath current = true) : isAbsolutePath cur = true := by
  unfold process_symlink at h
  cases hfs : fs current with
  | symlink t =>
    rw [hfs] at h
    simp only at h
    cases h
    exact resolve_target_absolute current t habs
  | file c =>
    rw [hfs] at h
    simp only at h
    cases h
    exact habs
  | directory =>
    rw [hfs] at h
    simp only at h
    cases h
    exact habs
  | missing =>
    rw [hfs] at h
    cases h

theorem resolveLoop_absolute (fs : FileSystem)
    (hdet : ∀ q ft t lt, detect_wrapper fs q ft = .ok (some (t, lt)) →
      isAbsolutePath t = true) :
    ∀ (fuel : Nat) (current : Path) (visited : List Path) (chain res : SymlinkChain),
      isAbsolutePath current = true →
      (∀ node ∈ chain.links, isAbsolutePath node.target = true) →
      resolveLoop fs fuel current visited chain = .ok res →
      res.origin = chain.origin ∧
        ∀ node ∈ res.links, isAbsolutePath node.target = true := by
  intro fuel
  induction fuel with
  | zero =>
    intro current visited chain res _ _ hres
    cases hres
  | succ fuel ih =>
    intro current visited chain res hcur hchain hres
    rw [resolveLoop] at hres
    by_cases hv : current ∈ visited
    · rw [if_pos hv] at hres
      cases hres
    rw [if_neg hv] at hres
    cases hps : process_symlink fs current with
    | error e =>
      rw [hps] at hres
      cases hres
    | ok pr =>
      obtain ⟨isSym, cur⟩ := pr
      rw [hps] at hres
      simp only at hres
      have hcura : isAbsolutePath cur = true :=
        process_symlink_abs fs current isSym cur hps hcur
      cases hft : detect_file_type fs cur with
      | error e =>
        rw [hft] at hres
        cases hres
      | ok ft =>
        rw [hft] at hres
        simp only at hres
        cases hw : detect_wrapper fs cur ft with
        | error e =>
          rw [hw] at hres
          cases hres
        | ok owr =>
          rw [hw] at hres
          cases owr with
          | some pr2 =>
            obtain ⟨target, lt⟩ := pr2
            simp only at hres
            have htabs : isAbsolutePath target = true := hdet cur ft target lt hw
            have h := ih target (current :: visited) (chain.add_link cur false lt)
              res htabs
              (by
                intro node hnode
                simp only [SymlinkChain.add_link, List.mem_append,
                  List.mem_singleton] at hnode
                rcases hnode with h | h
                · exact hchain node h
                · subst h; exact hcura)
              hres
            exact ⟨h.1, h.2⟩
          | none =>
            simp only at hres
            by_cases hisym : isSym = true
            · rw [hisym] at hres
              simp only [if_true] at hres
              by_cases hsym : ft = .symlink
              · rw [if_pos hsym] at hres
                have h := ih cur (current :: visited)
                  (add_symlink_to_chain chain cur ft) res hcura
                  (by
                    intro node hnode
                    simp only [add_symlink_to_chain, SymlinkChain.add_link,
                      List.mem_append, List.mem_singleton] at hnode
                    rcases hnode with h | h
                    · exact hchain node h
                    · subst h; exact hcura)
                  hres
                exact ⟨h.1, h.2⟩
              · rw [if_neg hsym] at hres
                cases hres
                refine ⟨rfl, ?_⟩
                intro node hnode
                simp only [add_symlink_to_chain, SymlinkChain.add_link,
                  List.mem_append, List.mem_singleton] at hnode
                rcases hnode with h | h
                · exact hchain node h
                · subst h; exact hcura
            · simp only [Bool.not_eq_true] at hisym
              rw [hisym] at hres
              simp only [Bool.false_eq_true, if_false] at hres
              cases hres
              refine ⟨rfl, ?_⟩
              intro node hnode
              simp only [add_terminal_node, SymlinkChain.add_link,
                List.mem_append, List.mem_singleton] at hnode
              rcases hnode with h | h
              · exact hchain node h
              · subst h; exact hcura

/-! ### C4: absoluteness of chain paths -/

/-- Counterexample to C4 as stated: on `fsRelativeWrapper` the wrapper
detector yields the relative target `foo/nix/store/x`; the resolution does
not fail when that target re-enters the loop but instead succeeds with the
relative path as the final hop target, violating the absoluteness
invariant. -/
theorem absolute_targets_counterexample :
    nix_binary_wrapper_detect fsRelativeWrapper "/w".toList =
      .ok (some "foo/nix/store/x".toList) ∧
    isAbsolutePath "foo/nix/store/x".toList = false ∧
    resolve fsRelativeWrapper 5 "/w".toList =
      .ok ⟨"/w".toList, [⟨"/w".toList, false, .wrapper (.text .shell)⟩,
        ⟨"foo/nix/store/x".toList, true, .terminal .text⟩]⟩ :=
  ⟨by decide, by decide, by decide⟩

/-- C4 (amended): the origin of every successfully resolved chain is
absolute, and provided every target the wrapper detectors produce on the
given filesystem is absolute, every hop target is also absolute (symlink
resolution itself always yields absolute paths from absolute ones).  The
loop never re-checks absoluteness, so a relative detector target is adopted
unchecked rather than rejected. -/
theorem absolute_targets_of_absolute_detections (fs : FileSystem) (fuel : Nat)
    (p : Path) (chain : SymlinkChain)
    (hdet : ∀ q ft t lt, detect_wrapper fs q ft = .ok (some (t, lt)) →
      isAbsolutePath t = true)
    (hres : resolve fs fuel p = .ok chain) :
    isAbsolutePath chain.origin = true ∧
      ∀ node ∈ chain.links, isAbsolutePath node.target = true := by
  unfold resolve at hres
  by_cases habs : isAbsolutePath p = true
  · rw [if_pos habs] at hres
    have h := resolveLoop_absolute fs hdet fuel p [] (SymlinkChain.new p) chain habs
      (by simp [SymlinkChain.new]) hres
    refine ⟨?_, h.2⟩
    rw [h.1]
    exact habs
  · rw [if_neg habs] at hres
    cases hres

theorem detect_wrapper_some_detector (fs : FileSystem) (q : Path) (ft : FileType)
    (t : Path) (lt : LinkType)
    (h : detect_wrapper fs q ft = .ok (some (t, lt))) :
    nix_binary_wrapper_detect fs q = .ok (some t) ∨
      nix_program_name_detect fs q = .ok (some t) := by
  cases ft <;> simp only [detect_wrapper] at h <;> try cases h
  all_goals {
    cases hb : nix_binary_wrapper_detect fs q with
    | error e => rw [hb] at h; cases h
    | ok ob =>
      rw [hb] at h
      cases ob with
      | some tb =>
        simp only at h
        cases h
        exact Or.inl rfl
      | none =>
        simp only at h
        cases hp : nix_program_name_detect fs q with
        | error e => rw [hp] at h; cases h
        | ok op =>
          rw [hp] at h
          cases op with
          | some tp =>
            simp only [Option.map_some'] at h
            cases h
            exact Or.inr rfl
          | none => simp at h
  }

theorem fsPlainFile_binary_detector_none (q : Path) (t : Path) :
    nix_binary_wrapper_detect fsPlainFile q ≠ .ok (some t) := by
  by_cases hq : q = "/f".toList
  · subst hq
    intro h
    rw [show nix_binary_wrapper_detect fsPlainFile "/f".toList = .ok none from by decide] at h
    cases h
  · have hmiss : fsPlainFile q = .missing := by
      unfold fsPlainFile
      rw [if_neg hq]
    intro h
    unfold nix_binary_wrapper_detect metadataLen at h
    rw [hmiss] at h
    cases h

theorem fsPlainFile_name_detector_none (q : Path) (t : Path) :
    nix_program_name_detect fsPlainFile q ≠ .ok (some t) := by
  by_cases hq : q = "/f".toList
  · subst hq
    intro h
    rw [show nix_program_name_detect fsPlainFile "/f".toList = .ok none from by decide] at h
    cases h
  · have hmiss : fsPlainFile q = .missing := by
      unfold fsPlainFile
      rw [if_neg hq]
    intro h
    unfold nix_program_name_detect metadataLen at h
    rw [hmiss] at h
    by_cases hnix : containsSubstr q "nix".toList = true
    · rw [hnix] at h
      simp at h
    · simp only [Bool.not_eq_true] at hnix
      rw [hnix] at h
      simp at h

/-- Witness for C4 (amended) at the one-file fixture, on which neither
detector ever produces a target. -/
theorem absolute_targets_witness :
    isAbsolutePath ("/f".toList) = true ∧
      (∀ node ∈ ([⟨"/f".toList, true, .terminal .text⟩] : List SymlinkNode),
        isAbsolutePath node.target = true) := by
  have h := absolute_targets_of_absolute_detections fsPlainFile 3 "/f".toList
    ⟨"/f".toList, [⟨"/f".toList, true, .terminal .text⟩]⟩
    (by
      intro q ft t lt hw
      rcases detect_wrapper_some_detector fsPlainFile q ft t lt hw with hb | hp
      · exact absurd hb (fsPlainFile_binary_detector_none q t)
      · exact absurd hp (fsPlainFile_name_detector_none q t))
    (by decide)
  exact ⟨h.1, h.2⟩

/-! ### C5: repetition of paths within one chain -/

theorem resolveLoop_ok_not_visited (fs : FileSystem) (fuel : Nat) (t : Path)
    (visited : List Path) (chain res : SymlinkChain)
    (h : resolveLoop fs fuel t visited chain = .ok res) : t ∉ visited := by
  cases fuel with
  | zero => cases h
  | succ fuel =>
    intro hmem
    rw [resolveLoop, if_pos hmem] at h
    cases h

/-- Deterministic continuation of the loop for a post-symlink path `x`:
`some b` when processing `x` appends a non-final hop and continues with
pre-symlink path `b` (a wrapper target, or `x` itself when `x` classifies as
a symlink); `none` when processing `x` terminates or errors. -/
def nextPre (fs : FileSystem) (x : Path) : Option Path :=
  match detect_file_type fs x with
  | .error _ => none
  | .ok ft =>
    match detect_wrapper fs x ft with
    | .error _ => none
    | .ok (some (t, _)) => some t
    | .ok none => if ft = .symlink then some x else none

theorem detect_file_type_symlink_entry (fs : FileSystem) (x : Path)
    (h : detect_file_type fs x = .ok .symlink) : ∃ t, fs x = .symlink t := by
  unfold detect_file_type at h
  cases hfs : fs x with
  | symlink t => exact ⟨t, rfl⟩
  | file c =>
    rw [hfs] at h
    simp only [Except.ok.injEq] at h
    exact absurd h (classifyBuffer_ne_symlink _)
  | directory =>
    rw [hfs] at h
    cases h
  | missing =>
    rw [hfs] at h
    cases h

theorem process_symlink_false_entry (fs : FileSystem) (current cur : Path)
    (h : process_symlink fs current = .ok (false, cur)) :
    cur = current ∧ ((∃ c, fs current = .file c) ∨ fs current = .directory) := by
  unfold process_symlink at h
  cases hfs : fs current with
  | symlink t =>
    rw [hfs] at h
    simp at h
  | file c =>
    rw [hfs] at h
    simp only [Except.ok.injEq, Prod.mk.injEq] at h
    exact ⟨h.2.symm, Or.inl ⟨c, rfl⟩⟩
  | directory =>
    rw [hfs] at h
    simp only [Except.ok.injEq, Prod.mk.injEq] at h
    exact ⟨h.2.symm, Or.inr rfl⟩
  | missing =>
    rw [hfs] at h
    cases h

theorem process_symlink_true_entry (fs : FileSystem) (current cur : Path)
    (h : process_symlink fs current = .ok (true, cur)) :
    ∃ t, fs current = .symlink t ∧ resolve_target current t = cur := by
  unfold process_symlink at h
  cases hfs : fs current with
  | symlink t =>
    rw [hfs] at h
    simp only [Except.ok.injEq, Prod.mk.injEq] at h
    exact ⟨t, rfl, h.2⟩
  | file c =>
    rw [hfs] at h
    simp at h
  | directory =>
    rw [hfs] at h
    simp at h
  | missing =>
    rw [hfs] at h
    cases h

theorem nodup_map_append_singleton {l : List SymlinkNode} {node : SymlinkNode}
    (h : (l.map SymlinkNode.target).Nodup)
    (hnot : ¬ ∃ x ∈ l, x.target = node.target) :
    (((l ++ [node]).map SymlinkNode.target)).Nodup := by
  rw [List.map_append, List.map_singleton]
  rw [List.nodup_append]
  refine ⟨h, List.nodup_singleton _, ?_⟩
  intro a ha hb
  simp only [List.mem_singleton] at hb
  subst hb
  rcases List.mem_map.mp ha with ⟨x, hx, hxt⟩
  exact hnot ⟨x, hx, hxt⟩

theorem resolveLoop_nodup (fs : FileSystem) :
    ∀ (fuel : Nat) (current : Path) (visited : List Path) (chain res : SymlinkChain),
      (chain.links.map SymlinkNode.target).Nodup →
      (∀ node ∈ chain.links, ∃ b, nextPre fs node.target = some b ∧
        (b ∈ visited ∨ b = current)) →
      resolveLoop fs fuel current visited chain = .ok res →
      (res.links.map SymlinkNode.target).Nodup := by
  intro fuel
  induction fuel with
  | zero =>
    intro current visited chain res _ _ hres
    cases hres
  | succ fuel ih =>
    intro current visited chain res hnd hinv hres
    rw [resolveLoop] at hres
    by_cases hv : current ∈ visited
    · rw [if_pos hv] at hres
      cases hres
    rw [if_neg hv] at hres
    cases hps : process_symlink fs current with
    | error e =>
      rw [hps] at hres
      cases hres
    | ok pr =>
      obtain ⟨isSym, cur⟩ := pr
      rw [hps] at hres
      simp only at hres
      cases hft : detect_file_type fs cur with
      | error e =>
        rw [hft] at hres
        cases hres
      | ok ft =>
        rw [hft] at hres
        simp only at hres
        cases hw : detect_wrapper fs cur ft with
        | error e =>
          rw [hw] at hres
          cases hres
        | ok owr =>
          rw [hw] at hres
          cases owr with
          | some pr2 =>
            obtain ⟨target, lt⟩ := pr2
            simp only at hres
            have hnp : nextPre fs cur = some target := by
              simp only [nextPre, hft, hw]
            by_cases hdup : ∃ x ∈ chain.links, x.target = cur
            · exfalso
              obtain ⟨x, hx, hxt⟩ := hdup
              obtain ⟨b, hb, hbmem⟩ := hinv x hx
              rw [hxt, hnp] at hb
              cases hb
              have hmem : target ∈ current :: visited := by
                rcases hbmem with hm | hm
                · exact List.mem_cons_of_mem _ hm
                · simp [hm]
              exact resolveLoop_ok_not_visited fs fuel target (current :: visited)
                _ res hres hmem
            · refine ih target (current :: visited)
                (chain.add_link cur false lt) res ?_ ?_ hres
              · exact nodup_map_append_singleton hnd hdup
              · intro node hnode
                simp only [SymlinkChain.add_link, List.mem_append,
                  List.mem_singleton] at hnode
                rcases hnode with hmem | hmem
                · obtain ⟨b, hb, hbmem⟩ := hinv node hmem
                  refine ⟨b, hb, Or.inl ?_⟩
                  rcases hbmem with hm | hm
                  · exact List.mem_cons_of_mem _ hm
                  · simp [hm]
                · subst hmem
                  exact ⟨target, hnp, Or.inr rfl⟩
          | none =>
            simp only at hres
            by_cases hisym : isSym = true
            · rw [hisym] at hres
              simp only [if_true] at hres
              by_cases hsym : ft = .symlink
              · rw [if_pos hsym] at hres
                have hnp : nextPre fs cur = some cur := by
                  simp only [nextPre, hft, hw]
                  simp [hsym]
                by_cases hdup : ∃ x ∈ chain.links, x.target = cur
                · exfalso
                  obtain ⟨x, hx, hxt⟩ := hdup
                  obtain ⟨b, hb, hbmem⟩ := hinv x hx
                  rw [hxt, hnp] at hb
                  cases hb
                  have hmem : cur ∈ current :: visited := by
                    rcases hbmem with hm | hm
                    · exact List.mem_cons_of_mem _ hm
                    · simp [hm]
                  exact resolveLoop_ok_not_visited fs fuel cur (current :: visited)
                    _ res hres hmem
                · refine ih cur (current :: visited)
                    (add_symlink_to_chain chain cur ft) res ?_ ?_ hres
                  · exact nodup_map_append_singleton hnd hdup
                  · intro node hnode
                    simp only [add_symlink_to_chain, SymlinkChain.add_link,
                      List.mem_append, List.mem_singleton] at hnode
                    rcases hnode with hmem | hmem
                    · obtain ⟨b, hb, hbmem⟩ := hinv node hmem
                      refine ⟨b, hb, Or.inl ?_⟩
                      rcases hbmem with hm | hm
                      · exact List.mem_cons_of_mem _ hm
                      · simp [hm]
                    · subst hmem
                      exact ⟨cur, hnp, Or.inr rfl⟩
              · rw [if_neg hsym] at hres
                cases hres
                have hnp : nextPre fs cur = none := by
                  simp only [nextPre, hft, hw]
                  simp [hsym]
                refine nodup_map_append_singleton hnd ?_
                rintro ⟨x, hx, hxt⟩
                obtain ⟨b, hb, _⟩ := hinv x hx
                rw [hxt, hnp] at hb
                cases hb
            · simp only [Bool.not_eq_true] at hisym
              subst hisym
              simp only [Bool.false_eq_true, if_false] at hres
              cases hres
              have hftne : ft ≠ .symlink := by
                intro hsym
                subst hsym
                obtain ⟨t, hentry⟩ := detect_file_type_symlink_entry fs cur hft
                obtain ⟨hcureq, hkind⟩ := process_symlink_false_entry fs current cur hps
                subst hcureq
                rcases hkind with ⟨c, hc⟩ | hc
                · rw [hc] at hentry
                  cases hentry
                · rw [hc] at hentry
                  cases hentry
              have hnp : nextPre fs cur = none := by
                simp only [nextPre, hft, hw]
                simp [hftne]
              refine nodup_map_append_singleton hnd ?_
              rintro ⟨x, hx, hxt⟩
              obtain ⟨b, hb, _⟩ := hinv x hx
              rw [hxt, hnp] at hb
              cases hb

/-- Counterexample to C5 as stated: resolving the plain file `/f` succeeds
with a chain whose origin `/f` also appears as the (single) hop target, so
origin and hop targets are not pairwise distinct. -/
theorem distinct_paths_counterexample :
    resolve fsPlainFile 2 "/f".toList =
      .ok ⟨"/f".toList, [⟨"/f".toList, true, .terminal .text⟩]⟩ ∧
    (SymlinkChain.mk "/f".toList
        [⟨"/f".toList, true, .terminal .text⟩]).origin ∈
      (SymlinkChain.mk "/f".toList
        [⟨"/f".toList, true, .terminal .text⟩]).links.map SymlinkNode.target :=
  ⟨by decide, by decide⟩

/-- C5 (amended): in every successfully resolved chain the hop targets are
pairwise distinct; the origin, however, may coincide with a hop target (it
does whenever the first processed path is not a symlink, as the
counterexample shows). -/
theorem hop_targets_nodup (fs : FileSystem) (fuel : Nat) (p : Path)
    (chain : SymlinkChain) (hres : resolve fs fuel p = .ok chain) :
    (chain.links.map SymlinkNode.target).Nodup := by
  unfold resolve at hres
  by_cases habs : isAbsolutePath p = true
  · rw [if_pos habs] at hres
    exact resolveLoop_nodup fs fuel p [] (SymlinkChain.new p) chain
      (by simp [SymlinkChain.new]) (by simp [SymlinkChain.new]) hres
  · rw [if_neg habs] at hres
    cases hres

/-- Witness for C5 (amended) at the three-link chain fixture. -/
theorem hop_targets_nodup_witness :
    ((SymlinkChain.mk "/l1".toList
        [⟨"/l2".toList, false, .symlink⟩, ⟨"/l3".toList, false, .symlink⟩,
          ⟨"/t".toList, true, .terminal .text⟩]).links.map SymlinkNode.target).Nodup :=
  hop_targets_nodup fsChainThree 3 "/l1".toList _ (by decide)

/-! ### C3: kind of the final hop -/

theorem resolveLoop_last (fs : FileSystem) :
    ∀ (fuel : Nat) (current : Path) (visited : List Path) (chain res : SymlinkChain),
      resolveLoop fs fuel current visited chain = .ok res →
      ∃ node : SymlinkNode, res.links.getLast? = some node ∧ node.is_final = true ∧
        ∃ ft, detect_file_type fs node.target = .ok ft ∧ ft ≠ .symlink ∧
          ((node.link_type = symlink_link_type ft ∧
            ∃ prev t, fs prev = .symlink t ∧ resolve_target prev t = node.target) ∨
           node.link_type = terminal_link_type ft) := by
  intro fuel
  induction fuel with
  | zero =>
    intro current visited chain res hres
    cases hres
  | succ fuel ih =>
    intro current visited chain res hres
    rw [resolveLoop] at hres
    by_cases hv : current ∈ visited
    · rw [if_pos hv] at hres
      cases hres
    rw [if_neg hv] at hres
    cases hps : process_symlink fs current with
    | error e =>
      rw [hps] at hres
      cases hres
    | ok pr =>
      obtain ⟨isSym, cur⟩ := pr
      rw [hps] at hres
      simp only at hres
      cases hft : detect_file_type fs cur with
      | error e =>
        rw [hft] at hres
        cases hres
      | ok ft =>
        rw [hft] at hres
        simp only at hres
        cases hw : detect_wrapper fs cur ft with
        | error e =>
          rw [hw] at hres
          cases hres
        | ok owr =>
          rw [hw] at hres
          cases owr with
          | some pr2 =>
            obtain ⟨target, lt⟩ := pr2
            simp only at hres
            exact ih target (current :: visited) _ res hres
          | none =>
            simp only at hres
            by_cases hisym : isSym = true
            · subst hisym
              simp only [if_true] at hres
              by_cases hsym : ft = .symlink
              · rw [if_pos hsym] at hres
                exact ih cur (current :: visited) _ res hres
              · rw [if_neg hsym] at hres
                cases hres
                refine ⟨⟨cur, if ft = .symlink then false else true,
                  symlink_link_type ft⟩, ?_, ?_, ft, hft, hsym, ?_⟩
                · simp [add_symlink_to_chain, SymlinkChain.add_link,
                    List.getLast?_concat]
                · simp [hsym]
                · left
                  refine ⟨rfl, ?_⟩
                  obtain ⟨t, hentry, hrt⟩ :=
                    process_symlink_true_entry fs current cur hps
                  exact ⟨current, t, hentry, hrt⟩
            · simp only [Bool.not_eq_true] at hisym
              subst hisym
              simp only [Bool.false_eq_true, if_false] at hres
              cases hres
              have hftne : ft ≠ .symlink := by
                intro hsym
                subst hsym
                obtain ⟨t, hentry⟩ := detect_file_type_symlink_entry fs cur hft
                obtain ⟨hcureq, hkind⟩ := process_symlink_false_entry fs current cur hps
                subst hcureq
                rcases hkind with ⟨c, hc⟩ | hc
                · rw [hc] at hentry
                  cases hentry
                · rw [hc] at hentry
                  cases hentry
              refine ⟨⟨cur, true, terminal_link_type ft⟩, ?_, rfl, ft, hft, hftne,
                Or.inr rfl⟩
              simp [add_terminal_node, SymlinkChain.add_link, List.getLast?_concat]

/-- Counterexample to C3 as stated: `/l` is a symlink to `/b`, whose content
classifies as `OtherBinary`, yet the successful resolve ends in a
`Terminal(Text)` hop because the terminal was appended by the symlink branch,
which treats only `ElfBinary` as binary. -/
theorem terminal_kind_counterexample :
    detect_file_type fsSymlinkOtherBinary "/b".toList = .ok .otherBinary ∧
    resolve fsSymlinkOtherBinary 5 "/l".toList =
      .ok ⟨"/l".toList, [⟨"/b".toList, true, .terminal .text⟩]⟩ :=
  ⟨by decide, by decide⟩

/-- C3 (amended): in every successful resolve the last hop is final, and its
kind is `Terminal(Binary)` when the classifier returned `ElfBinary` and
`Terminal(Text)` when it returned anything other than `ElfBinary` or
`OtherBinary`; for `OtherBinary` the kind depends on whether the final step
followed a symlink: `Terminal(Binary)` when it did not, and otherwise
`Terminal(Text)`, with the final hop target being the resolved target of a
symlink of the filesystem. -/
theorem terminal_kind_characterization (fs : FileSystem) (fuel : Nat) (p : Path)
    (chain : SymlinkChain) (hres : resolve fs fuel p = .ok chain) :
    ∃ node : SymlinkNode, chain.links.getLast? = some node ∧ node.is_final = true ∧
      ∃ ft, detect_file_type fs node.target = .ok ft ∧
        (ft = .elfBinary → node.link_type = .terminal .binary) ∧
        (ft ≠ .elfBinary → ft ≠ .otherBinary → node.link_type = .terminal .text) ∧
        (ft = .otherBinary →
          (node.link_type = .terminal .binary ∨
            (node.link_type = .terminal .text ∧
              ∃ prev t, fs prev = .symlink t ∧ resolve_target prev t = node.target))) := by
  unfold resolve at hres
  by_cases habs : isAbsolutePath p = true
  · rw [if_pos habs] at hres
    obtain ⟨node, hlast, hfin, ft, hft, hftne, hdisj⟩ :=
      resolveLoop_last fs fuel p [] _ chain hres
    refine ⟨node, hlast, hfin, ft, hft, ?_, ?_, ?_⟩
    · intro helf
      rcases hdisj with ⟨hk, _⟩ | hk
      · rw [hk, helf]; rfl
      · rw [hk, helf]; rfl
    · intro hne hnob
      rcases hdisj with ⟨hk, _⟩ | hk
      · rw [hk]
        cases ft <;>
          first
            | rfl
            | exact absurd rfl hftne
            | exact absurd rfl hne
      · rw [hk]
        cases ft <;>
          first
            | rfl
            | exact absurd rfl hne
            | exact absurd rfl hnob
    · intro hob
      subst hob
      rcases hdisj with ⟨hk, hprev⟩ | hk
      · right
        exact ⟨by rw [hk]; rfl, hprev⟩
      · left
        rw [hk]
        rfl
  · rw [if_neg habs] at hres
    cases hres

/-- Witness for C3 (amended) at the symlink-to-text fixture. -/
theorem terminal_kind_characterization_witness :
    ∃ node : SymlinkNode,
      (SymlinkChain.mk "/l".toList
        [⟨"/t".toList, true, .terminal .text⟩]).links.getLast? = some node ∧
      node.is_final = true ∧
      ∃ ft, detect_file_type fsSymlinkText node.target = .ok ft ∧
        (ft = .elfBinary → node.link_type = .terminal .binary) ∧
        (ft ≠ .elfBinary → ft ≠ .otherBinary → node.link_type = .terminal .text) ∧
        (ft = .otherBinary →
          (node.link_type = .terminal .binary ∨
            (node.link_type = .terminal .text ∧
              ∃ prev t, fsSymlinkText prev = .symlink t ∧
                resolve_target prev t = node.target))) :=
  terminal_kind_characterization fsSymlinkText 5 "/l".toList
    ⟨"/l".toList, [⟨"/t".toList, true, .terminal .text⟩]⟩ (by decide)

/-- Witness for C1 at the concrete three-link chain fixture. -/
theorem chain_of_symlinks_resolves_witness :
    ∃ hops : List SymlinkNode,
      resolve fsChainThree 3 "/l1".toList = .ok ⟨"/l1".toList, hops⟩ ∧
      hops.length = 3 ∧
      hops.map SymlinkNode.is_final = [false, false, true] := by
  have h := chain_of_symlinks_resolves fsChainThree
    ["/l1".toList, "/l2".toList, "/l3".toList] "/t".toList
    ("hello".toList.map Char.toNat) 3
    (by simp) (by decide) (by decide) (by decide)
    (by
      simp only [isLinkChain]
      exact ⟨by decide, by decide, by decide, trivial⟩)
    (by decide) (by decide) (by simp)
  simpa using h

end Symseek
